import Mathlib

set_option maxHeartbeats 1000000

/-!
Formal model of the WebSocket chat relay server in
webrtc-from-chat/chat-server.js.

The server keeps a global connectionArray of sessions, a monotone nextID
counter for client ids, and a monotone appendToMakeUnique counter used to
disambiguate requested usernames.  Inbound utf8 frames are JSON decoded and
dispatched by their type field; chat text is sanitized by removing every
tag-like span, username requests run a uniqueness retry loop, and all other
message kinds are relayed untouched to a target session or broadcast.

The model below is a shallow embedding: each server-side function is
translated into a pure Lean function of the same name, global mutable state
becomes the ServerState record threaded through the handlers, and outbound
socket writes become an explicit list of pairs of recipient client id and
message.  A JavaScript exception escaping the handler is recorded in the
error field of HandlerResult, together with the state and the sends that
happened before the throw.
-/

/-- JavaScript values that can appear as a username or a requested name in
the chat server: a string, the undefined value (field absent or property
never assigned), or NaN (the result of adding a number to undefined, as in
origName + appendToMakeUnique when origName is undefined). -/
inductive JVal where
  | undef
  | nan
  | str (s : String)
deriving DecidableEq

/-- JavaScript strict equality restricted to the values of JVal: strings
compare by contents, undefined equals undefined, and NaN equals nothing,
not even itself. -/
def jeq : JVal → JVal → Bool
  | .undef, .undef => true
  | .str a, .str b => a == b
  | _, _ => false

/-- Decimal digits of a natural number, most significant digit first,
computed with explicit fuel so that the definition is structural. -/
def decDigitsFuel : Nat → Nat → List Char
  | 0, _ => []
  | fuel + 1, n =>
    if n < 10 then [Nat.digitChar n]
    else decDigitsFuel fuel (n / 10) ++ [Nat.digitChar (n % 10)]

/-- Decimal rendering of a natural number, exactly the string JavaScript
produces when an integer is concatenated onto a string. -/
def natToDec (n : Nat) : String := String.mk (decDigitsFuel (n + 1) n)

/-- JavaScript addition of a number to a JVal, as in the expression
origName + appendToMakeUnique: for a string it is concatenation with the
decimal rendering, for undefined or NaN it yields NaN. -/
def jsAddNum (v : JVal) (k : Nat) : JVal :=
  match v with
  | .str s => .str (s ++ natToDec k)
  | .undef => .nan
  | .nan => .nan

/-- One entry of connectionArray: the per-connection session object, with
its immutable clientID, its mutable username property (undefined until the
first username message), and the transport connected flag consulted by the
close handler. -/
structure Session where
  clientID : Nat
  username : JVal
  connected : Bool
deriving DecidableEq

/-- The global mutable state of chat-server.js: connectionArray, nextID and
appendToMakeUnique. -/
structure ServerState where
  connectionArray : List Session
  nextID : Nat
  appendToMakeUnique : Nat
deriving DecidableEq

/-- A decoded inbound JSON message.  Absent fields decode to none, and the
name field keeps the JavaScript value domain reachable from the protocol
(undefined when absent, otherwise a string). -/
structure Msg where
  type : Option String
  id : Option Nat
  name : JVal
  text : Option String
  target : Option String
deriving DecidableEq

/-- Outbound messages written to a socket by the server. -/
inductive OutMsg where
  | idMsg (id : Nat)
  | userlist (users : List JVal)
  | rejectusername (id : Option Nat) (name : JVal)
  | relay (m : Msg)
deriving DecidableEq

/-- A JavaScript exception escaping the message handler: a SyntaxError from
JSON.parse, a TypeError from reading or writing a property of null or
undefined (including calling send on the result of a failed find), or the
formal fuel of the retry loop running out (proved unreachable below). -/
inductive HandlerError where
  | parseError
  | typeError
  | fuelExhausted
deriving DecidableEq

/-- Result of processing one event: the new global state, the outbound
sends performed, as pairs of recipient clientID and message, in order, and
the exception that escaped, if any. -/
structure HandlerResult where
  state : ServerState
  sends : List (Nat × OutMsg)
  error : Option HandlerError
deriving DecidableEq

/-- An inbound WebSocket frame: a utf8 frame carrying either a decodable
message (some) or text that JSON.parse rejects (none), or a binary frame,
which the handler ignores. -/
inductive WireFrame where
  | utf8 (decoded : Option Msg)
  | binary
deriving DecidableEq

/-- Function isUsernameUnique of chat-server.js: scan connectionArray and
report whether no session has the given value as its username, using
JavaScript strict equality and stopping at the first hit. -/
def isUsernameUnique : List Session → JVal → Bool
  | [], _ => true
  | conn :: rest, v => if jeq conn.username v then false else isUsernameUnique rest v

/-- Function getConnectionForID of chat-server.js: first session whose
clientID strictly equals the given decoded id field. -/
def getConnectionForID : List Session → Option Nat → Option Session
  | [], _ => none
  | conn :: rest, i =>
    if (some conn.clientID : Option Nat) = i then some conn else getConnectionForID rest i

/-- Assignment connect.username = name in the username case: the connection
found by getConnectionForID is a reference into connectionArray, so the
first session whose clientID equals the id is updated in place. -/
def setUsernameById : List Session → Option Nat → JVal → List Session
  | [], _, _ => []
  | conn :: rest, i, v =>
    if (some conn.clientID : Option Nat) = i then { conn with username := v } :: rest
    else conn :: setUsernameById rest i v

/-- Function makeUserListMessage of chat-server.js: a userlist message
holding the username of every session in connectionArray, in array order. -/
def makeUserListMessage (arr : List Session) : OutMsg :=
  .userlist (arr.map (fun conn => conn.username))

/-- Function sendUserListToAll of chat-server.js: build the userlist message
once from the current array and send it to every session in the array. -/
def sendUserListToAll (arr : List Session) : List (Nat × OutMsg) :=
  arr.map (fun conn => (conn.clientID, makeUserListMessage arr))

/-- Function sendToOneUser of chat-server.js: find the session whose
username strictly equals the target and send to it; none models the
TypeError thrown when find returns undefined. -/
def sendToOneUser (arr : List Session) (target : String) (m : OutMsg) : Option (Nat × OutMsg) :=
  (List.find? (fun conn => jeq conn.username (.str target)) arr).map
    (fun conn => (conn.clientID, m))

/-- The while loop of the username case: while the candidate name is not
unique, replace it by origName + appendToMakeUnique and bump the counter.
The first argument of the match is fuel bounding the number of uniqueness
checks; the loop is proved below to finish within connectionArray.length + 1
checks, the fuel the callers pass.  Returns the granted name, the new value
of appendToMakeUnique and the nameChanged flag. -/
def allocGo (arr : List Session) (origName : JVal) :
    Nat → JVal → Nat → Bool → Option (JVal × Nat × Bool)
  | 0, _, _, _ => none
  | fuel + 1, name, ctr, changed =>
    if isUsernameUnique arr name then some (name, ctr, changed)
    else allocGo arr origName fuel (jsAddNum origName ctr) (ctr + 1) true

/-- Predicate used by hasGt below. -/
def isGtChar (c : Char) : Bool := c = '>'

/-- Whether a character list contains the closing bracket character. -/
def hasGt : List Char → Bool
  | [] => false
  | c :: t => isGtChar c || hasGt t

mutual

/-- The global regex replace msg.text.replace removing every span that
starts with an opening angle bracket, continues with one or more characters
other than the closing bracket, and ends with the closing bracket.  The
scanner walks left to right; at an opening bracket it tries to match such a
span and, on success, drops it and continues after it; everywhere else the
character is kept. -/
def stripTags : List Char → List Char
  | [] => []
  | c :: t =>
    if c = '<' then
      match t with
      | [] => ['<']
      | d :: r =>
        if d = '>' then '<' :: '>' :: stripTags r
        else tagBody [d] r
    else c :: stripTags t
termination_by l => l.length
decreasing_by all_goals (simp [List.length_cons]; try omega)

/-- Scanning the inside of a candidate tag: seen holds the characters after
the opening bracket so far, none of which is the closing bracket.  If the
closing bracket is found the whole span is dropped and scanning resumes
after it; if the input ends first there was no match, and the regex engine
leaves the suffix starting at the opening bracket untouched, since it
contains no closing bracket at all. -/
def tagBody (seen : List Char) : List Char → List Char
  | [] => '<' :: seen
  | e :: r2 => if e = '>' then stripTags r2 else tagBody (seen ++ [e]) r2
termination_by rest => rest.length
decreasing_by all_goals (simp [List.length_cons]; try omega)

end

/-- Sanitization of chat text on the server: msg.text.replace with the
tag-removing pattern and the empty replacement. -/
def strip (s : String) : String := String.mk (stripTags s.data)

/-- A character list is in stripped form when every opening bracket in it is
either immediately followed by the closing bracket (which the pattern cannot
match, since the span needs at least one inner character) or is followed by
no closing bracket at all. -/
def stripped : List Char → Bool
  | [] => true
  | c :: t =>
    if c = '<' then
      match t with
      | [] => true
      | d :: _ => if d = '>' then stripped t else !hasGt t
    else stripped t

/-- Helper recognizing userlist messages. -/
def isUserlist : OutMsg → Bool
  | .userlist _ => true
  | _ => false

/-- Helper recognizing rejectusername messages. -/
def isReject : OutMsg → Bool
  | .rejectusername _ _ => true
  | _ => false

/-- The for-of loop broadcasting a relayed message to every session in
connectionArray, the sender included. -/
def broadcastSends (arr : List Session) (m : Msg) : List (Nat × OutMsg) :=
  arr.map (fun conn => (conn.clientID, OutMsg.relay m))

/-- The sendToClients block at the end of the message handler: a message
with a non-empty target is sent to the one session found by sendToOneUser,
throwing a TypeError when the target is not registered; otherwise the
message is sent to every connected session. -/
def dispatch (st : ServerState) (msg : Msg) : HandlerResult :=
  match msg.target with
  | some t =>
    if t.length ≠ 0 then
      match sendToOneUser st.connectionArray t (.relay msg) with
      | some send1 => ⟨st, [send1], none⟩
      | none => ⟨st, [], some .typeError⟩
    else ⟨st, broadcastSends st.connectionArray msg, none⟩
  | none => ⟨st, broadcastSends st.connectionArray msg, none⟩

/-- The username case of the message handler: run the retry loop, then send
a rejectusername notice to the requester when the name changed, store the
granted name in the session found by getConnectionForID, and send the
updated userlist to everyone.  When the id resolves to no session the code
throws a TypeError, after the loop already bumped appendToMakeUnique but
before any send or registry change. -/
def usernameCase (st : ServerState) (msg : Msg) : HandlerResult :=
  match allocGo st.connectionArray msg.name (st.connectionArray.length + 1)
      msg.name st.appendToMakeUnique false with
  | none => ⟨st, [], some .fuelExhausted⟩
  | some (newName, ctr2, nameChanged) =>
    match getConnectionForID st.connectionArray msg.id with
    | none => ⟨{ st with appendToMakeUnique := ctr2 }, [], some .typeError⟩
    | some conn =>
      let arr2 := setUsernameById st.connectionArray msg.id newName
      ⟨{ st with connectionArray := arr2, appendToMakeUnique := ctr2 },
        (if nameChanged then [(conn.clientID, OutMsg.rejectusername msg.id newName)] else [])
          ++ sendUserListToAll arr2,
        none⟩

/-- The connection.on message handler: binary frames are ignored; a utf8
frame is JSON parsed (a SyntaxError escapes on undecodable text); a message
of type message gets the sender username attached and its text sanitized,
then goes through the target dispatch; a message of type username is fully
handled by the username case; every other type passes through the target
dispatch untouched. -/
def handleMessage (st : ServerState) (fr : WireFrame) : HandlerResult :=
  match fr with
  | .binary => ⟨st, [], none⟩
  | .utf8 none => ⟨st, [], some .parseError⟩
  | .utf8 (some msg) =>
    if msg.type = some "message" then
      match getConnectionForID st.connectionArray msg.id with
      | none => ⟨st, [], some .typeError⟩
      | some conn =>
        match msg.text with
        | none => ⟨st, [], some .typeError⟩
        | some t =>
          dispatch st { msg with name := conn.username, text := some (strip t) }
    else if msg.type = some "username" then usernameCase st msg
    else dispatch st msg

/-- The wsServer request handler after accepting: push a new session with
an undefined username onto connectionArray, assign it nextID, bump nextID,
and send the new client its id message.  No userlist is sent here. -/
def handleConnect (st : ServerState) : ServerState × List (Nat × OutMsg) :=
  ({ st with
      connectionArray := st.connectionArray ++
        [{ clientID := st.nextID, username := .undef, connected := true }],
      nextID := st.nextID + 1 },
    [(st.nextID, OutMsg.idMsg st.nextID)])

/-- The transport marking a connection as dead before its close handler
runs: the connected property of the session with the given clientID becomes
false. -/
def markDead (arr : List Session) (i : Nat) : List Session :=
  arr.map (fun conn => if conn.clientID = i then { conn with connected := false } else conn)

/-- The connection.on close handler: keep only the sessions whose transport
still reports connected, then send the updated userlist to the remaining
sessions. -/
def handleClose (st : ServerState) : ServerState × List (Nat × OutMsg) :=
  let arr2 := st.connectionArray.filter (fun el => el.connected)
  ({ st with connectionArray := arr2 }, sendUserListToAll arr2)

/-- The events the single threaded server processes to completion, one at a
time: a new connection, an inbound frame, and a disconnect of the
connection with the given clientID (the transport marks it dead, then the
close handler runs). -/
inductive ChatEvent where
  | connect
  | message (fr : WireFrame)
  | disconnect (i : Nat)

/-- Processing of one event, with its outbound sends and escaping error. -/
def stepFull (st : ServerState) (e : ChatEvent) : HandlerResult :=
  match e with
  | .connect =>
    let p := handleConnect st
    ⟨p.1, p.2, none⟩
  | .message fr => handleMessage st fr
  | .disconnect i =>
    let p := handleClose { st with connectionArray := markDead st.connectionArray i }
    ⟨p.1, p.2, none⟩

/-- The state after one event. -/
def stepState (st : ServerState) (e : ChatEvent) : ServerState := (stepFull st e).state

/-- The state after a sequence of events. -/
def runEvents (st : ServerState) (es : List ChatEvent) : ServerState :=
  es.foldl stepState st

/-- The state at server start: empty connectionArray, nextID seeded from the
clock (kept abstract), appendToMakeUnique = 1. -/
def initialState (n0 : Nat) : ServerState := ⟨[], n0, 1⟩

/-- The non-empty display name a session contributes to the uniqueness
invariant, if any. -/
def nameContrib (conn : Session) : Option String :=
  match conn.username with
  | .str u => if u = "" then none else some u
  | _ => none

/-- All non-empty display names currently registered, in array order. -/
def nonEmptyNames (arr : List Session) : List String :=
  arr.filterMap nameContrib

/-- The registry invariant: all non-empty display names are pairwise
distinct. -/
def RegistryInv (arr : List Session) : Prop := (nonEmptyNames arr).Nodup

/-- Numeric value of a decimal digit character, used to read back the
decimal rendering. -/
def digitVal : Char → Nat
  | '0' => 0
  | '1' => 1
  | '2' => 2
  | '3' => 3
  | '4' => 4
  | '5' => 5
  | '6' => 6
  | '7' => 7
  | '8' => 8
  | '9' => 9
  | _ => 0

/-- Value of a digit string, most significant digit first. -/
def decVal (l : List Char) : Nat := l.foldl (fun acc c => acc * 10 + digitVal c) 0

/-- The i-th candidate name the retry loop checks, starting from the
requested name and then origName concatenated with the successive counter
values. -/
def cands (orig name : JVal) (ctr : Nat) : Nat → JVal
  | 0 => name
  | i + 1 => jsAddNum orig (ctr + i)

/-- Claim C3 demo state and claim C2 demo state share this registry. -/
def demoState : ServerState := ⟨[⟨1, .str "alice", true⟩], 2, 1⟩

/-- Claim C2: a pass-through message from the registered session 1 directed
at target ghost, a display name no session holds. -/
theorem directed_message_unknown_target_throws :
    handleMessage demoState
        (.utf8 (some ⟨some "offer", some 1, .undef, none, some "ghost"⟩)) =
      ⟨demoState, [], some .typeError⟩ := by
  decide

/-- Claim C3: a utf8 frame whose text JSON.parse rejects makes the handler
throw a SyntaxError; no send happens and the registry is unchanged, but the
exception escapes the event processor. -/
theorem malformed_frame_parse_throws :
    handleMessage demoState (.utf8 none) = ⟨demoState, [], some .parseError⟩ := by
  decide

theorem hasGt_append (a b : List Char) : hasGt (a ++ b) = (hasGt a || hasGt b) := by
  induction a with
  | nil => simp [hasGt]
  | cons c t ih => simp [hasGt, ih, Bool.or_assoc]

theorem hasGt_false_iff (l : List Char) : hasGt l = false ↔ '>' ∉ l := by
  induction l with
  | nil => simp [hasGt]
  | cons c t ih =>
    simp only [hasGt, isGtChar, Bool.or_eq_false_iff, decide_eq_false_iff_not,
      List.mem_cons, ih]
    constructor
    · rintro ⟨h1, h2⟩ (h | h)
      · exact h1 h.symm
      · exact h2 h
    · intro h
      exact ⟨fun hh => h (Or.inl hh.symm), fun hh => h (Or.inr hh)⟩

theorem tagBody_noGt (rest : List Char) (h : '>' ∉ rest) :
    ∀ seen : List Char, tagBody seen rest = '<' :: seen ++ rest := by
  induction rest with
  | nil => intro seen; simp [tagBody]
  | cons e r2 ih =>
    intro seen
    have he : ¬(e = '>') := fun hh => h (hh ▸ List.mem_cons_self e r2)
    rw [tagBody, if_neg he, ih (fun hm => h (List.mem_cons_of_mem _ hm))]
    simp

theorem stripTags_noGt (l : List Char) (h : '>' ∉ l) : stripTags l = l := by
  induction l with
  | nil => simp [stripTags]
  | cons c t ih =>
    have ht : '>' ∉ t := fun hm => h (List.mem_cons_of_mem _ hm)
    by_cases hc : c = '<'
    · subst hc
      cases t with
      | nil => simp [stripTags]
      | cons d r =>
        have hd : ¬(d = '>') :=
          fun hh => ht (hh ▸ List.mem_cons_self d r)
        have hr : '>' ∉ r := fun hm => ht (List.mem_cons_of_mem _ hm)
        simp [stripTags, hd, tagBody_noGt r hr [d]]
    · cases t with
      | nil => simp [stripTags, hc]
      | cons d r => simp [stripTags, hc, ih ht]

theorem stripped_fix : ∀ (n : Nat) (l : List Char), l.length ≤ n →
    stripped l = true → stripTags l = l := by
  intro n
  induction n with
  | zero =>
    intro l hl _
    have : l = [] := List.eq_nil_of_length_eq_zero (Nat.le_zero.mp hl)
    subst this
    simp [stripTags]
  | succ n ih =>
    intro l hl hs
    match l with
    | [] => simp [stripTags]
    | c :: t =>
      by_cases hc : c = '<'
      · subst hc
        cases t with
        | nil => simp [stripTags]
        | cons d r =>
          by_cases hd : d = '>'
          · subst hd
            have hsr : stripped r = true := by
              simpa [stripped] using hs
            simp [stripTags, ih r (by simp only [List.length_cons] at hl ⊢; omega) hsr]
          · have hg : hasGt (d :: r) = false := by
              simpa [stripped, hd] using hs
            apply stripTags_noGt
            intro hm
            rcases List.mem_cons.mp hm with h1 | h1
            · exact absurd h1 (by decide)
            · exact absurd h1 ((hasGt_false_iff (d :: r)).mp hg)
      · have hst : stripped t = true := by simpa [stripped, hc] using hs
        cases t with
        | nil => simp [stripTags, hc]
        | cons d r => simp [stripTags, hc, ih (d :: r) (by simp only [List.length_cons] at hl ⊢; omega) hst]

theorem stripped_open_seen (seen : List Char) (hg : hasGt seen = false) :
    stripped ('<' :: seen) = true := by
  cases seen with
  | nil => simp [stripped]
  | cons d s2 =>
    have hd : ¬(d = '>') := by
      intro h
      subst h
      simp [hasGt, isGtChar] at hg
    simp [stripped, hd, hg]

theorem stripped_strip_aux : ∀ n : Nat,
    (∀ l : List Char, l.length ≤ n → stripped (stripTags l) = true) ∧
    (∀ seen rest : List Char, rest.length ≤ n → hasGt seen = false →
      stripped (tagBody seen rest) = true) := by
  intro n
  induction n with
  | zero =>
    constructor
    · intro l hl
      have : l = [] := List.eq_nil_of_length_eq_zero (Nat.le_zero.mp hl)
      subst this
      simp [stripTags, stripped]
    · intro seen rest hr hg
      have : rest = [] := List.eq_nil_of_length_eq_zero (Nat.le_zero.mp hr)
      subst this
      simpa [tagBody] using stripped_open_seen seen hg
  | succ n ih =>
    constructor
    · intro l hl
      match l with
      | [] => simp [stripTags, stripped]
      | c :: t =>
        by_cases hc : c = '<'
        · subst hc
          cases t with
          | nil => simp [stripTags, stripped]
          | cons d r =>
            by_cases hd : d = '>'
            · subst hd
              have h1 := ih.1 r (by simp only [List.length_cons] at hl ⊢; omega)
              simp [stripTags, stripped, h1]
            · have h2 := ih.2 [d] r (by simp only [List.length_cons] at hl ⊢; omega)
                (by simp [hasGt, isGtChar, hd])
              simp [stripTags, hd, h2]
        · cases t with
          | nil => simp [stripTags, stripped, hc]
          | cons d r =>
            have h1 := ih.1 (d :: r) (by simp only [List.length_cons] at hl ⊢; omega)
            simp [stripTags, stripped, hc, h1]
    · intro seen rest hr hg
      cases rest with
      | nil => simpa [tagBody] using stripped_open_seen seen hg
      | cons e r2 =>
        by_cases he : e = '>'
        · subst he
          have h1 := ih.1 r2 (by simp only [List.length_cons] at hr ⊢; omega)
          simp [tagBody, h1]
        · have h2 := ih.2 (seen ++ [e]) r2 (by simp only [List.length_cons] at hr ⊢; omega)
            (by simp [hasGt_append, hg, hasGt, isGtChar, he])
          simp [tagBody, he, h2]

/-- Claim C9: the tag-stripping applied to chat text is idempotent; applying
the strip to an already-stripped string returns it unchanged. -/
theorem strip_idempotent : ∀ s : String, strip (strip s) = strip s := by
  intro s
  have h2 := (stripped_strip_aux s.data.length).1 s.data le_rfl
  have h1 := stripped_fix (stripTags s.data).length (stripTags s.data) le_rfl h2
  show String.mk (stripTags (stripTags s.data)) = String.mk (stripTags s.data)
  exact congrArg String.mk h1

theorem digitVal_digitChar : ∀ d : Nat, d < 10 → digitVal (Nat.digitChar d) = d := by
  decide

theorem decVal_append_digit (a : List Char) (c : Char) :
    decVal (a ++ [c]) = (decVal a) * 10 + digitVal c := by
  simp [decVal, List.foldl_append]

theorem decVal_decDigits : ∀ (fuel n : Nat), n < fuel →
    decVal (decDigitsFuel fuel n) = n := by
  intro fuel
  induction fuel with
  | zero => intro n h; omega
  | succ f ih =>
    intro n h
    by_cases h10 : n < 10
    · simp [decDigitsFuel, h10, decVal, digitVal_digitChar n h10]
    · have hdiv : n / 10 < n := Nat.div_lt_self (by omega) (by norm_num)
      rw [decDigitsFuel]
      rw [if_neg h10]
      rw [decVal_append_digit, ih (n / 10) (by omega),
        digitVal_digitChar (n % 10) (Nat.mod_lt n (by norm_num))]
      omega

theorem decDigits_inj (a b : Nat)
    (h : decDigitsFuel (a + 1) a = decDigitsFuel (b + 1) b) : a = b := by
  have ha := decVal_decDigits (a + 1) a (Nat.lt_succ_self a)
  have hb := decVal_decDigits (b + 1) b (Nat.lt_succ_self b)
  rw [← ha, ← hb, h]

theorem decDigits_ne_nil (n : Nat) : decDigitsFuel (n + 1) n ≠ [] := by
  by_cases h10 : n < 10
  · simp [decDigitsFuel, h10]
  · simp [decDigitsFuel, h10]

theorem strData_append (a b : String) : (a ++ b).data = a.data ++ b.data := by
  cases a
  cases b
  rfl

theorem str_append_natToDec_ne (s : String) (k : Nat) : s ++ natToDec k ≠ s := by
  intro h
  have hd := congrArg String.data h
  rw [strData_append] at hd
  have hlen := congrArg List.length hd
  rw [List.length_append] at hlen
  have hne := decDigits_ne_nil k
  have : (natToDec k).data.length ≠ 0 := by
    intro h0
    exact hne (List.eq_nil_of_length_eq_zero h0)
  omega

theorem jeq_nan_right (u : JVal) : jeq u .nan = false := by cases u <;> rfl

theorem jeq_str_iff (u : JVal) (t : String) : jeq u (.str t) = true ↔ u = .str t := by
  cases u <;> simp [jeq]

theorem unique_cons (conn : Session) (rest : List Session) (v : JVal) :
    isUsernameUnique (conn :: rest) v =
      if jeq conn.username v then false else isUsernameUnique rest v := rfl

theorem unique_all {arr : List Session} {v : JVal}
    (h : isUsernameUnique arr v = true) : ∀ conn ∈ arr, jeq conn.username v = false := by
  induction arr with
  | nil => intro conn hc; cases hc
  | cons a t ih =>
    rw [unique_cons] at h
    by_cases hj : jeq a.username v
    · rw [if_pos hj] at h; cases h
    · rw [if_neg hj] at h
      intro conn hc
      rcases List.mem_cons.mp hc with rfl | hc2
      · exact Bool.eq_false_iff.mpr hj
      · exact ih h conn hc2

theorem all_unique {arr : List Session} {v : JVal}
    (h : ∀ conn ∈ arr, jeq conn.username v = false) : isUsernameUnique arr v = true := by
  induction arr with
  | nil => rfl
  | cons a t ih =>
    rw [unique_cons, if_neg]
    · exact ih (fun conn hc => h conn (List.mem_cons_of_mem a hc))
    · rw [h a (List.mem_cons_self a t)]; exact Bool.false_ne_true

theorem unique_false_ex {arr : List Session} {v : JVal}
    (h : isUsernameUnique arr v = false) : ∃ conn ∈ arr, jeq conn.username v = true := by
  by_contra hn
  push_neg at hn
  have : ∀ conn ∈ arr, jeq conn.username v = false := by
    intro conn hc
    exact Bool.eq_false_iff.mpr (hn conn hc)
  rw [all_unique this] at h
  cases h

theorem nan_unique (arr : List Session) : isUsernameUnique arr .nan = true :=
  all_unique (fun conn _ => jeq_nan_right conn.username)

theorem allocGo_some_unique (arr : List Session) (orig : JVal) :
    ∀ (fuel : Nat) (name : JVal) (ctr : Nat) (ch : Bool) (n : JVal) (c2 : Nat) (b : Bool),
    allocGo arr orig fuel name ctr ch = some (n, c2, b) →
    isUsernameUnique arr n = true := by
  intro fuel
  induction fuel with
  | zero => intro name ctr ch n c2 b h; cases h
  | succ f ih =>
    intro name ctr ch n c2 b h
    rw [allocGo] at h
    by_cases hu : isUsernameUnique arr name
    · rw [if_pos hu] at h
      injection h with h2
      injection h2 with hn hrest
      exact hn ▸ hu
    · rw [if_neg hu] at h
      exact ih _ _ _ _ _ _ h

theorem allocGo_ctr_le (arr : List Session) (orig : JVal) :
    ∀ (fuel : Nat) (name : JVal) (ctr : Nat) (ch : Bool) (n : JVal) (c2 : Nat) (b : Bool),
    allocGo arr orig fuel name ctr ch = some (n, c2, b) → ctr ≤ c2 := by
  intro fuel
  induction fuel with
  | zero => intro name ctr ch n c2 b h; cases h
  | succ f ih =>
    intro name ctr ch n c2 b h
    rw [allocGo] at h
    by_cases hu : isUsernameUnique arr name
    · rw [if_pos hu] at h
      injection h with h2
      injection h2 with hn hrest
      injection hrest with hc hb
      omega
    · rw [if_neg hu] at h
      have := ih _ _ _ _ _ _ h
      omega

theorem allocGo_changed_stays (arr : List Session) (orig : JVal) :
    ∀ (fuel : Nat) (name : JVal) (ctr : Nat) (n : JVal) (c2 : Nat) (b : Bool),
    allocGo arr orig fuel name ctr true = some (n, c2, b) → b = true := by
  intro fuel
  induction fuel with
  | zero => intro name ctr n c2 b h; cases h
  | succ f ih =>
    intro name ctr n c2 b h
    rw [allocGo] at h
    by_cases hu : isUsernameUnique arr name
    · rw [if_pos hu] at h
      injection h with h2
      injection h2 with hn hrest
      injection hrest with hc hb
      exact hb.symm
    · rw [if_neg hu] at h
      exact ih _ _ _ _ _ h

theorem allocGo_shape (arr : List Session) (orig : JVal) :
    ∀ (fuel : Nat) (name : JVal) (ctr : Nat) (ch : Bool) (n : JVal) (c2 : Nat) (b : Bool),
    allocGo arr orig fuel name ctr ch = some (n, c2, b) →
    (n = name ∧ b = ch) ∨ ∃ k, ctr ≤ k ∧ n = jsAddNum orig k := by
  intro fuel
  induction fuel with
  | zero => intro name ctr ch n c2 b h; cases h
  | succ f ih =>
    intro name ctr ch n c2 b h
    rw [allocGo] at h
    by_cases hu : isUsernameUnique arr name
    · rw [if_pos hu] at h
      injection h with h2
      injection h2 with hn hrest
      injection hrest with hc hb
      exact Or.inl ⟨hn.symm, hb.symm⟩
    · rw [if_neg hu] at h
      rcases ih _ _ _ _ _ _ h with ⟨hn, _⟩ | ⟨k, hk, hn⟩
      · exact Or.inr ⟨ctr, le_rfl, hn⟩
      · exact Or.inr ⟨k, by omega, hn⟩

theorem cands_shift (orig name : JVal) (ctr i : Nat) :
    cands orig name ctr (i + 1) = cands orig (jsAddNum orig ctr) (ctr + 1) i := by
  cases i with
  | zero => simp [cands]
  | succ j =>
    show jsAddNum orig (ctr + (j + 1)) = jsAddNum orig (ctr + 1 + j)
    congr 1
    omega

theorem allocGo_none_fails (arr : List Session) (orig : JVal) :
    ∀ (fuel : Nat) (name : JVal) (ctr : Nat) (ch : Bool),
    allocGo arr orig fuel name ctr ch = none →
    ∀ i < fuel, isUsernameUnique arr (cands orig name ctr i) = false := by
  intro fuel
  induction fuel with
  | zero => intro name ctr ch h i hi; omega
  | succ f ih =>
    intro name ctr ch h i hi
    rw [allocGo] at h
    by_cases hu : isUsernameUnique arr name
    · rw [if_pos hu] at h; cases h
    · rw [if_neg hu] at h
      cases i with
      | zero => exact Bool.eq_false_iff.mpr hu
      | succ j =>
        rw [cands_shift]
        exact ih _ _ _ h j (by omega)

theorem nodup_subset_length {α : Type} [DecidableEq α] :
    ∀ (l l2 : List α), l.Nodup → (∀ x ∈ l, x ∈ l2) → l.length ≤ l2.length := by
  intro l
  induction l with
  | nil => intro l2 _ _; simp
  | cons a t ih =>
    intro l2 hnd hsub
    have ha : a ∈ l2 := hsub a (List.mem_cons_self a t)
    have hnd2 := List.nodup_cons.mp hnd
    have hlen : (l2.erase a).length = l2.length - 1 := List.length_erase_of_mem ha
    have hsub2 : ∀ x ∈ t, x ∈ l2.erase a := by
      intro x hx
      have hxa : x ≠ a := fun hh => hnd2.1 (hh ▸ hx)
      exact (List.mem_erase_of_ne hxa).mpr (hsub x (List.mem_cons_of_mem a hx))
    have hrec := ih (l2.erase a) hnd2.2 hsub2
    have hpos : 0 < l2.length := List.length_pos_of_mem ha
    simp only [List.length_cons]
    omega

theorem cands_str_form (s : String) (ctr : Nat) :
    ∀ i, cands (.str s) (.str s) ctr i =
      JVal.str (match i with | 0 => s | j + 1 => s ++ natToDec (ctr + j)) := by
  intro i
  cases i with
  | zero => rfl
  | succ j => rfl

theorem natToDec_data_inj (a b : Nat) (h : (natToDec a).data = (natToDec b).data) :
    a = b := decDigits_inj a b h

theorem str_append_cancel (s : String) (x y : String)
    (h : s ++ x = s ++ y) : x.data = y.data := by
  have hd := congrArg String.data h
  rw [strData_append, strData_append] at hd
  exact List.append_cancel_left hd

theorem cands_str_inj (s : String) (ctr : Nat) :
    Function.Injective (fun i => cands (.str s) (.str s) ctr i) := by
  intro i j hij
  simp only [cands_str_form] at hij
  cases i with
  | zero =>
    cases j with
    | zero => rfl
    | succ b =>
      injection hij with hij2
      exact absurd hij2.symm (str_append_natToDec_ne s (ctr + b))
  | succ a =>
    cases j with
    | zero =>
      injection hij with hij2
      exact absurd hij2 (str_append_natToDec_ne s (ctr + a))
    | succ b =>
      injection hij with hij2
      have := natToDec_data_inj (ctr + a) (ctr + b)
        (str_append_cancel s _ _ hij2)
      omega

theorem alloc_total_str (arr : List Session) (s : String) (ctr : Nat) :
    allocGo arr (.str s) (arr.length + 1) (.str s) ctr false ≠ none := by
  intro hnone
  have hfail := allocGo_none_fails arr (.str s) (arr.length + 1) (.str s) ctr false hnone
  have hnd : ((List.range (arr.length + 1)).map
      (fun i => cands (.str s) (.str s) ctr i)).Nodup :=
    (List.nodup_range (arr.length + 1)).map (cands_str_inj s ctr)
  have hsub : ∀ x ∈ (List.range (arr.length + 1)).map
      (fun i => cands (.str s) (.str s) ctr i),
      x ∈ arr.map (fun conn => conn.username) := by
    intro x hx
    obtain ⟨i, hi, rfl⟩ := List.mem_map.mp hx
    have hf := hfail i (List.mem_range.mp hi)
    obtain ⟨conn, hmem, hj⟩ := unique_false_ex hf
    have hcu : conn.username = cands (.str s) (.str s) ctr i := by
      rw [cands_str_form] at hj ⊢
      exact (jeq_str_iff _ _).mp hj
    exact hcu ▸ List.mem_map_of_mem _ hmem
  have hle := nodup_subset_length _ _ hnd hsub
  simp only [List.length_map, List.length_range] at hle
  omega

theorem alloc_total (arr : List Session) (orig : JVal) (ctr : Nat) :
    allocGo arr orig (arr.length + 1) orig ctr false ≠ none := by
  match orig with
  | .str s => exact alloc_total_str arr s ctr
  | .nan =>
    intro h
    rw [allocGo, if_pos (nan_unique arr)] at h
    cases h
  | .undef =>
    intro h
    rw [allocGo] at h
    by_cases hu : isUsernameUnique arr .undef
    · rw [if_pos hu] at h; cases h
    · rw [if_neg hu] at h
      have hne : arr ≠ [] := by
        intro he
        subst he
        exact hu rfl
      obtain ⟨m, hm⟩ : ∃ m, arr.length = m + 1 := by
        cases arr with
        | nil => exact absurd rfl hne
        | cons a t => exact ⟨t.length, by simp⟩
      rw [hm] at h
      have : jsAddNum JVal.undef ctr = JVal.nan := rfl
      rw [this, allocGo, if_pos (nan_unique arr)] at h
      cases h

/-- Claim C7: against a registry of n active sessions the retry loop of a
username request for a string name finishes within at most n + 1 uniqueness
checks (the fuel the handler passes), each retry using a strictly larger
counter value, and the granted name collides with no active session. -/
theorem alloc_terminates_within_bound :
    ∀ (arr : List Session) (s : String) (ctr : Nat),
    ∃ granted ctr2 changed,
      allocGo arr (JVal.str s) (arr.length + 1) (JVal.str s) ctr false =
        some (granted, ctr2, changed) ∧
      isUsernameUnique arr granted = true ∧ ctr ≤ ctr2 := by
  intro arr s ctr
  rcases hres : allocGo arr (.str s) (arr.length + 1) (.str s) ctr false with _ | ⟨n, c2, b⟩
  · exact absurd hres (alloc_total_str arr s ctr)
  · exact ⟨n, c2, b, rfl,
      allocGo_some_unique arr (.str s) _ _ _ _ _ _ _ hres,
      allocGo_ctr_le arr (.str s) _ _ _ _ _ _ _ hres⟩

theorem jsAddNum_ne_of_not_nan (orig : JVal) (h : orig ≠ .nan) (k : Nat) :
    jsAddNum orig k ≠ orig := by
  match orig with
  | .undef => intro hh; cases hh
  | .nan => exact absurd rfl h
  | .str s =>
    intro hh
    injection hh with hh2
    exact str_append_natToDec_ne s k hh2

theorem alloc_changed_iff (arr : List Session) (orig : JVal) (fuel : Nat)
    (granted : JVal) (c2 : Nat) (b : Bool) (ctr : Nat)
    (h : allocGo arr orig (fuel + 1) orig ctr false = some (granted, c2, b)) :
    (b = true ↔ granted ≠ orig) ∧
    (granted ≠ orig ↔ isUsernameUnique arr orig = false) := by
  rw [allocGo] at h
  by_cases hu : isUsernameUnique arr orig
  · rw [if_pos hu] at h
    injection h with h2
    injection h2 with hn hrest
    injection hrest with hc hb
    subst hn
    subst hb
    constructor
    · simp
    · simp [hu]
  · rw [if_neg hu] at h
    have hb := allocGo_changed_stays arr orig fuel _ _ _ _ _ h
    have honan : orig ≠ .nan := by
      intro he
      subst he
      exact hu (nan_unique arr)
    have hne : granted ≠ orig := by
      rcases allocGo_shape arr orig fuel _ _ _ _ _ _ h with ⟨hn, _⟩ | ⟨k, _, hn⟩
      · exact hn ▸ jsAddNum_ne_of_not_nan orig honan ctr
      · exact hn ▸ jsAddNum_ne_of_not_nan orig honan k
    constructor
    · simp [hb, hne]
    · simp [hne, Bool.eq_false_iff.mpr hu]

theorem filter_reject_userlist (arr : List Session) :
    (sendUserListToAll arr).filter (fun p => isReject p.2) = [] := by
  rw [List.filter_eq_nil_iff]
  intro p hp
  obtain ⟨conn, _, rfl⟩ := List.mem_map.mp hp
  simp [makeUserListMessage, isReject]

theorem handleMessage_username (st : ServerState) (msg : Msg)
    (hty : msg.type = some "username") :
    handleMessage st (.utf8 (some msg)) = usernameCase st msg := by
  have h1 : ¬(msg.type = some "message") := by
    rw [hty]
    intro hh
    exact absurd (Option.some.inj hh) (by decide)
  rw [handleMessage, if_neg h1, if_pos hty]

theorem handleMessage_passthrough (st : ServerState) (msg : Msg)
    (h1 : msg.type ≠ some "message") (h2 : msg.type ≠ some "username") :
    handleMessage st (.utf8 (some msg)) = dispatch st msg := by
  rw [handleMessage, if_neg h1, if_neg h2]

theorem handleMessage_chat (st : ServerState) (msg : Msg) (conn : Session) (t : String)
    (hty : msg.type = some "message")
    (hconn : getConnectionForID st.connectionArray msg.id = some conn)
    (htext : msg.text = some t) :
    handleMessage st (.utf8 (some msg)) =
      dispatch st { msg with name := conn.username, text := some (strip t) } := by
  rw [handleMessage, if_pos hty, hconn, htext]

theorem usernameCase_eq (st : ServerState) (msg : Msg) (conn : Session)
    (granted : JVal) (ctr2 : Nat) (changed : Bool)
    (halloc : allocGo st.connectionArray msg.name (st.connectionArray.length + 1)
      msg.name st.appendToMakeUnique false = some (granted, ctr2, changed))
    (hconn : getConnectionForID st.connectionArray msg.id = some conn) :
    usernameCase st msg =
      { state :=
          { st with
            connectionArray := setUsernameById st.connectionArray msg.id granted,
            appendToMakeUnique := ctr2 },
        sends :=
          (if changed then [(conn.clientID, OutMsg.rejectusername msg.id granted)] else [])
            ++ sendUserListToAll (setUsernameById st.connectionArray msg.id granted),
        error := none } := by
  rw [usernameCase, halloc, hconn]

/-- Claim C6: a rejectusername message carrying the granted name is sent,
to the requesting session alone, exactly when the granted name differs from
the requested name; when they are equal no rejection notice goes out. -/
theorem rejectusername_iff_renamed :
    ∀ (st : ServerState) (msg : Msg) (conn : Session) (granted : JVal)
      (ctr2 : Nat) (changed : Bool),
    msg.type = some "username" →
    getConnectionForID st.connectionArray msg.id = some conn →
    allocGo st.connectionArray msg.name (st.connectionArray.length + 1)
      msg.name st.appendToMakeUnique false = some (granted, ctr2, changed) →
    (handleMessage st (.utf8 (some msg))).sends.filter (fun p => isReject p.2) =
      if granted ≠ msg.name then [(conn.clientID, OutMsg.rejectusername msg.id granted)]
      else [] := by
  intro st msg conn granted ctr2 changed hty hconn halloc
  rw [handleMessage_username st msg hty,
    usernameCase_eq st msg conn granted ctr2 changed halloc hconn]
  have hiff := (alloc_changed_iff st.connectionArray msg.name st.connectionArray.length
    granted ctr2 changed st.appendToMakeUnique halloc).1
  by_cases hne : granted ≠ msg.name
  · rw [if_pos hne]
    have hch : changed = true := hiff.mpr hne
    subst hch
    rw [List.filter_append, filter_reject_userlist, List.append_nil]
    simp [isReject]
  · rw [if_neg hne]
    have hch : changed = false := by
      rcases Bool.eq_false_or_eq_true changed with h | h
      · exact absurd (hiff.mp h) hne
      · exact h
    subst hch
    rw [List.filter_append, filter_reject_userlist, List.append_nil]
    simp [isReject]

/-- Witness for claim C6: session 1 is named alice and requests the free
name bob; the granted name equals the request and no rejectusername is
sent. -/
theorem rejectusername_iff_renamed_witness :
    getConnectionForID demoState.connectionArray (some 1) =
        some ⟨1, .str "alice", true⟩ ∧
    (handleMessage demoState
        (.utf8 (some ⟨some "username", some 1, .str "bob", none, none⟩))).sends.filter
      (fun p => isReject p.2) = [] := by
  constructor
  · decide
  · have h := rejectusername_iff_renamed demoState
      ⟨some "username", some 1, .str "bob", none, none⟩
      ⟨1, .str "alice", true⟩ (.str "bob") 1 false rfl (by decide) (by decide)
    simpa using h

/-- Counterexample for claim C4: session 1 is currently named alice and
requests its own current name alice; no other session holds that name and
it is not empty, yet the server grants alice1 and sends a rejectusername,
because the uniqueness scan also matches the requester itself. -/
theorem rename_to_own_name_not_granted_unchanged :
    (handleMessage demoState
        (.utf8 (some ⟨some "username", some 1, .str "alice", none, none⟩))).state.connectionArray =
      [⟨1, .str "alice1", true⟩] ∧
    (handleMessage demoState
        (.utf8 (some ⟨some "username", some 1, .str "alice", none, none⟩))).sends =
      [(1, OutMsg.rejectusername (some 1) (.str "alice1")),
        (1, OutMsg.userlist [.str "alice1"])] := by
  decide

/-- Claim C4 amended: the granted name differs from the requested name
exactly when the requested name is the current display name of some session
in the registry, the requester itself included; a request equal to the
requester's own current name is treated as a collision and renamed, the
empty string by itself causes no change, and every username request whose
id resolves triggers a roster broadcast to all sessions. -/
theorem username_change_iff_name_held :
    ∀ (st : ServerState) (msg : Msg) (s : String) (conn : Session)
      (granted : JVal) (ctr2 : Nat) (changed : Bool),
    msg.type = some "username" → msg.name = JVal.str s →
    getConnectionForID st.connectionArray msg.id = some conn →
    allocGo st.connectionArray msg.name (st.connectionArray.length + 1)
      msg.name st.appendToMakeUnique false = some (granted, ctr2, changed) →
    ((granted ≠ JVal.str s) ↔ ∃ c2 ∈ st.connectionArray, c2.username = JVal.str s) ∧
    (∀ c2 ∈ (handleMessage st (.utf8 (some msg))).state.connectionArray,
      (c2.clientID,
        makeUserListMessage (handleMessage st (.utf8 (some msg))).state.connectionArray) ∈
        (handleMessage st (.utf8 (some msg))).sends) := by
  intro st msg s conn granted ctr2 changed hty hname hconn halloc
  constructor
  · have h2 := (alloc_changed_iff st.connectionArray msg.name st.connectionArray.length
      granted ctr2 changed st.appendToMakeUnique halloc).2
    rw [hname] at h2
    rw [h2]
    constructor
    · intro hfalse
      obtain ⟨c2, hc2, hj⟩ := unique_false_ex hfalse
      exact ⟨c2, hc2, (jeq_str_iff _ _).mp hj⟩
    · rintro ⟨c2, hc2, he⟩
      rcases Bool.eq_false_or_eq_true (isUsernameUnique st.connectionArray (.str s)) with h | h
      · have hall := unique_all h c2 hc2
        rw [he] at hall
        simp [jeq] at hall
      · exact h
  · rw [handleMessage_username st msg hty,
      usernameCase_eq st msg conn granted ctr2 changed halloc hconn]
    dsimp only
    simp only [sendUserListToAll]
    intro c2 hc2
    apply List.mem_append_right
    exact List.mem_map_of_mem _ hc2

/-- Witness for claim C4 amended: session 1 named alice requests the free
name bob; the granted name equals the request, no session held bob, and the
roster goes to the one registered session. -/
theorem username_change_iff_name_held_witness :
    getConnectionForID demoState.connectionArray (some 1) =
        some ⟨1, .str "alice", true⟩ ∧
    ((JVal.str "bob" ≠ JVal.str "bob") ↔
      ∃ c2 ∈ demoState.connectionArray, c2.username = JVal.str "bob") ∧
    (∀ c2 ∈ (handleMessage demoState
        (.utf8 (some ⟨some "username", some 1, .str "bob", none, none⟩))).state.connectionArray,
      (c2.clientID,
        makeUserListMessage (handleMessage demoState
          (.utf8 (some ⟨some "username", some 1, .str "bob", none, none⟩))).state.connectionArray) ∈
        (handleMessage demoState
          (.utf8 (some ⟨some "username", some 1, .str "bob", none, none⟩))).sends) := by
  refine ⟨by decide, ?_, ?_⟩
  · exact (username_change_iff_name_held demoState
      ⟨some "username", some 1, .str "bob", none, none⟩ "bob"
      ⟨1, .str "alice", true⟩ (.str "bob") 1 false rfl rfl (by decide) (by decide)).1
  · exact (username_change_iff_name_held demoState
      ⟨some "username", some 1, .str "bob", none, none⟩ "bob"
      ⟨1, .str "alice", true⟩ (.str "bob") 1 false rfl rfl (by decide) (by decide)).2

/-- Second demo registry: alice on session 1 and bob on session 2. -/
def demoState2 : ServerState :=
  ⟨[⟨1, .str "alice", true⟩, ⟨2, .str "bob", true⟩], 3, 1⟩

/-- Claim C8: a chat or pass-through message with a non-empty target that a
session holds is delivered to exactly the session found by the name lookup
and to nobody else; with no non-empty target it is relayed to every session
in the registry, the sender included.  Chat messages reach the dispatch
with the sender name attached and the text sanitized; every type other than
message and username passes through untouched. -/
theorem routing_target_rule :
    (∀ (st : ServerState) (msg : Msg) (t : String) (conn : Session),
      msg.target = some t → t.length ≠ 0 →
      List.find? (fun c2 => jeq c2.username (.str t)) st.connectionArray = some conn →
      dispatch st msg = ⟨st, [(conn.clientID, .relay msg)], none⟩) ∧
    (∀ (st : ServerState) (msg : Msg),
      (msg.target = none ∨ msg.target = some "") →
      dispatch st msg =
        ⟨st, st.connectionArray.map (fun conn => (conn.clientID, OutMsg.relay msg)), none⟩) ∧
    (∀ (st : ServerState) (msg : Msg),
      msg.type ≠ some "message" → msg.type ≠ some "username" →
      handleMessage st (.utf8 (some msg)) = dispatch st msg) ∧
    (∀ (st : ServerState) (msg : Msg) (conn : Session) (t2 : String),
      msg.type = some "message" →
      getConnectionForID st.connectionArray msg.id = some conn →
      msg.text = some t2 →
      handleMessage st (.utf8 (some msg)) =
        dispatch st { msg with name := conn.username, text := some (strip t2) }) := by
  refine ⟨?_, ?_, ?_, ?_⟩
  · intro st msg t conn ht hlen hf
    rw [dispatch.eq_def, ht]
    dsimp only
    rw [if_pos hlen]
    simp only [sendToOneUser]
    rw [hf]
    rfl
  · intro st msg hor
    rcases hor with h | h
    · rw [dispatch.eq_def, h]
      rfl
    · rw [dispatch.eq_def, h]
      dsimp only
      rw [if_neg (by decide)]
      rfl
  · intro st msg h1 h2
    exact handleMessage_passthrough st msg h1 h2
  · intro st msg conn t2 hty hconn htext
    exact handleMessage_chat st msg conn t2 hty hconn htext

/-- Witness for claim C8: with alice and bob registered, a pass-through
message from alice targeted at bob is delivered to session 2 alone. -/
theorem routing_target_rule_witness :
    ("bob".length ≠ 0) ∧
    (List.find? (fun c2 => jeq c2.username (.str "bob")) demoState2.connectionArray =
      some ⟨2, .str "bob", true⟩) ∧
    dispatch demoState2 ⟨some "offer", some 1, .undef, none, some "bob"⟩ =
      ⟨demoState2,
        [(2, OutMsg.relay ⟨some "offer", some 1, .undef, none, some "bob"⟩)], none⟩ := by
  refine ⟨by decide, by decide, ?_⟩
  exact routing_target_rule.1 demoState2
    ⟨some "offer", some 1, .undef, none, some "bob"⟩ "bob"
    ⟨2, .str "bob", true⟩ rfl (by decide) (by decide)

theorem markDead_id (arr : List Session) (i : Nat)
    (h : ∀ conn ∈ arr, conn.clientID ≠ i) : markDead arr i = arr := by
  induction arr with
  | nil => rfl
  | cons a t ih =>
    simp only [markDead, List.map_cons]
    rw [if_neg (h a (List.mem_cons_self a t))]
    have ht := ih (fun conn hc => h conn (List.mem_cons_of_mem a hc))
    simp only [markDead] at ht
    rw [ht]

/-- Claim C10: after one close event the registry holds exactly the
sessions whose transport still reports connected, so every dead connection
is purged in that step, and a close for an absent session with everyone
else alive leaves the registry unchanged. -/
theorem close_purges_dead_connections :
    ∀ (st : ServerState) (i : Nat),
    (∀ conn : Session,
      conn ∈ (stepState st (.disconnect i)).connectionArray ↔
        (conn ∈ markDead st.connectionArray i ∧ conn.connected = true)) ∧
    ((∀ conn ∈ st.connectionArray, conn.clientID ≠ i) →
      (∀ conn ∈ st.connectionArray, conn.connected = true) →
      (stepState st (.disconnect i)).connectionArray = st.connectionArray) := by
  intro st i
  constructor
  · intro conn
    show conn ∈ (markDead st.connectionArray i).filter (fun el => el.connected) ↔ _
    exact List.mem_filter
  · intro h1 h2
    show (markDead st.connectionArray i).filter (fun el => el.connected) = st.connectionArray
    rw [markDead_id st.connectionArray i h1]
    exact List.filter_eq_self.mpr h2

/-- Witness for claim C10: a close for the absent session 2 while the
connected session 1 is registered leaves the registry unchanged. -/
theorem close_purges_dead_connections_witness :
    (∀ conn ∈ demoState.connectionArray, conn.clientID ≠ 2) ∧
    (∀ conn ∈ demoState.connectionArray, conn.connected = true) ∧
    (stepState demoState (.disconnect 2)).connectionArray = demoState.connectionArray := by
  refine ⟨by decide, by decide, ?_⟩
  exact (close_purges_dead_connections demoState 2).2 (by decide) (by decide)

/-- Counterexample for claim C5: processing a connect event on a fresh
server sends only the id assignment to the new session; no userlist message
reaches any session, although a session is now registered. -/
theorem connect_sends_no_roster :
    (handleConnect (initialState 7)).2 = [(7, OutMsg.idMsg 7)] ∧
    ((handleConnect (initialState 7)).2.filter (fun p => isUserlist p.2)) = [] ∧
    (handleConnect (initialState 7)).1.connectionArray ≠ [] := by
  decide

/-- Claim C5 amended: after every disconnect event and after every username
message whose id resolves to a session, every session in the resulting
registry is sent a userlist listing exactly the usernames of all registry
entries, in insertion order, recomputed from the registry at broadcast
time; a connect event sends only the id assignment to the new session and
broadcasts no roster. -/
theorem roster_broadcast_on_disconnect_and_username :
    (∀ st : ServerState, (handleConnect st).2 = [(st.nextID, OutMsg.idMsg st.nextID)]) ∧
    (∀ (st : ServerState) (i : Nat),
      ∀ conn ∈ (stepState st (.disconnect i)).connectionArray,
        (conn.clientID,
          makeUserListMessage (stepState st (.disconnect i)).connectionArray) ∈
          (stepFull st (.disconnect i)).sends) ∧
    (∀ (st : ServerState) (msg : Msg) (conn : Session),
      msg.type = some "username" →
      getConnectionForID st.connectionArray msg.id = some conn →
      (handleMessage st (.utf8 (some msg))).error = none ∧
      ∀ c2 ∈ (handleMessage st (.utf8 (some msg))).state.connectionArray,
        (c2.clientID, makeUserListMessage
            (handleMessage st (.utf8 (some msg))).state.connectionArray) ∈
          (handleMessage st (.utf8 (some msg))).sends) := by
  refine ⟨?_, ?_, ?_⟩
  · intro st
    rfl
  · intro st i conn hc
    show (conn.clientID,
        makeUserListMessage
          ((markDead st.connectionArray i).filter (fun el => el.connected))) ∈
      sendUserListToAll ((markDead st.connectionArray i).filter (fun el => el.connected))
    simp only [sendUserListToAll]
    exact List.mem_map_of_mem _ hc
  · intro st msg conn hty hconn
    rcases halloc : allocGo st.connectionArray msg.name (st.connectionArray.length + 1)
        msg.name st.appendToMakeUnique false with _ | ⟨granted, ctr2, changed⟩
    · exact absurd halloc (alloc_total st.connectionArray msg.name st.appendToMakeUnique)
    · rw [handleMessage_username st msg hty,
        usernameCase_eq st msg conn granted ctr2 changed halloc hconn]
      constructor
      · rfl
      · dsimp only
        simp only [sendUserListToAll]
        intro c2 hc2
        apply List.mem_append_right
        exact List.mem_map_of_mem _ hc2

/-- Witness for claim C5 amended: session 1 named alice requests carol;
the handler finishes without error and the one registered session receives
the updated roster. -/
theorem roster_broadcast_witness :
    getConnectionForID demoState.connectionArray (some 1) =
        some ⟨1, .str "alice", true⟩ ∧
    ((handleMessage demoState
        (.utf8 (some ⟨some "username", some 1, .str "carol", none, none⟩))).error = none ∧
      ∀ c2 ∈ (handleMessage demoState
          (.utf8 (some ⟨some "username", some 1, .str "carol", none, none⟩))).state.connectionArray,
        (c2.clientID, makeUserListMessage (handleMessage demoState
            (.utf8 (some ⟨some "username", some 1, .str "carol", none, none⟩))).state.connectionArray) ∈
          (handleMessage demoState
            (.utf8 (some ⟨some "username", some 1, .str "carol", none, none⟩))).sends) := by
  refine ⟨by decide, ?_⟩
  exact roster_broadcast_on_disconnect_and_username.2.2 demoState
    ⟨some "username", some 1, .str "carol", none, none⟩
    ⟨1, .str "alice", true⟩ rfl (by decide)

theorem nameContrib_some {conn : Session} {u : String} (h : nameContrib conn = some u) :
    conn.username = .str u := by
  cases hcu : conn.username with
  | undef => unfold nameContrib at h; rw [hcu] at h; simp at h
  | nan => unfold nameContrib at h; rw [hcu] at h; simp at h
  | str w =>
    unfold nameContrib at h
    rw [hcu] at h
    by_cases hw : w = ""
    · simp [hw] at h
    · simp [hw] at h
      rw [h]

theorem unique_uncons {a : Session} {t : List Session} {v : JVal}
    (h : isUsernameUnique (a :: t) v = true) :
    jeq a.username v = false ∧ isUsernameUnique t v = true := by
  rw [unique_cons] at h
  by_cases hja : jeq a.username v
  · rw [if_pos hja] at h; cases h
  · rw [if_neg hja] at h
    exact ⟨Bool.eq_false_iff.mpr hja, h⟩

theorem unique_notin {arr : List Session} {u : String}
    (h : isUsernameUnique arr (.str u) = true) : u ∉ nonEmptyNames arr := by
  intro hmem
  obtain ⟨conn, hc, hcontrib⟩ := List.mem_filterMap.mp hmem
  have hju := unique_all h conn hc
  rw [nameContrib_some hcontrib] at hju
  simp [jeq] at hju

theorem names_cons_none {a : Session} {t : List Session} (h : nameContrib a = none) :
    nonEmptyNames (a :: t) = nonEmptyNames t := by
  unfold nonEmptyNames
  rw [List.filterMap_cons, h]

theorem names_cons_some {a : Session} {t : List Session} {w : String}
    (h : nameContrib a = some w) :
    nonEmptyNames (a :: t) = w :: nonEmptyNames t := by
  unfold nonEmptyNames
  rw [List.filterMap_cons, h]

theorem names_tail_sublist (a : Session) (t : List Session) :
    (nonEmptyNames t).Sublist (nonEmptyNames (a :: t)) := by
  cases hnc : nameContrib a with
  | none => rw [names_cons_none hnc]
  | some w =>
    rw [names_cons_some hnc]
    exact List.Sublist.cons w (List.Sublist.refl _)

theorem inv_uncons {a : Session} {t : List Session} (h : RegistryInv (a :: t)) :
    RegistryInv t ∧ ∀ w, nameContrib a = some w → w ∉ nonEmptyNames t := by
  constructor
  · exact List.Nodup.sublist (names_tail_sublist a t) h
  · intro w hw
    have h2 : nonEmptyNames (a :: t) = w :: nonEmptyNames t := names_cons_some hw
    unfold RegistryInv at h
    rw [h2] at h
    exact (List.nodup_cons.mp h).1

theorem inv_cons {a : Session} {t : List Session} (h1 : RegistryInv t)
    (h2 : ∀ w, nameContrib a = some w → w ∉ nonEmptyNames t) : RegistryInv (a :: t) := by
  cases hnc : nameContrib a with
  | none =>
    unfold RegistryInv
    rw [names_cons_none hnc]
    exact h1
  | some w =>
    unfold RegistryInv
    rw [names_cons_some hnc]
    exact List.nodup_cons.mpr ⟨h2 w hnc, h1⟩

theorem mem_setUsernameById {arr : List Session} {i : Option Nat} {v : JVal} {conn : Session}
    (h : conn ∈ setUsernameById arr i v) : conn ∈ arr ∨ conn.username = v := by
  induction arr with
  | nil => rw [setUsernameById] at h; cases h
  | cons a t ih =>
    rw [setUsernameById] at h
    by_cases hid : (some a.clientID : Option Nat) = i
    · rw [if_pos hid] at h
      rcases List.mem_cons.mp h with rfl | h2
      · exact Or.inr rfl
      · exact Or.inl (List.mem_cons_of_mem a h2)
    · rw [if_neg hid] at h
      rcases List.mem_cons.mp h with rfl | h2
      · exact Or.inl (List.mem_cons_self _ _)
      · rcases ih h2 with h3 | h3
        · exact Or.inl (List.mem_cons_of_mem a h3)
        · exact Or.inr h3

theorem mem_names_set {arr : List Session} {i : Option Nat} {v : JVal} {x : String}
    (h : x ∈ nonEmptyNames (setUsernameById arr i v)) :
    x ∈ nonEmptyNames arr ∨ v = .str x := by
  obtain ⟨conn, hc, hcontrib⟩ := List.mem_filterMap.mp h
  rcases mem_setUsernameById hc with h2 | h2
  · exact Or.inl (List.mem_filterMap.mpr ⟨conn, h2, hcontrib⟩)
  · rw [← h2]
    exact Or.inr (nameContrib_some hcontrib)

theorem inv_set : ∀ (arr : List Session) (i : Option Nat) (v : JVal),
    RegistryInv arr → isUsernameUnique arr v = true →
    RegistryInv (setUsernameById arr i v) := by
  intro arr
  induction arr with
  | nil =>
    intro i v h _
    exact h
  | cons a t ih =>
    intro i v hinv huniq
    obtain ⟨hja, hut⟩ := unique_uncons huniq
    obtain ⟨hit, hhead⟩ := inv_uncons hinv
    rw [setUsernameById]
    by_cases hid : (some a.clientID : Option Nat) = i
    · rw [if_pos hid]
      apply inv_cons hit
      intro w hw
      have hv : v = .str w := nameContrib_some hw
      exact unique_notin (hv ▸ hut)
    · rw [if_neg hid]
      apply inv_cons (ih i v hit hut)
      intro w hw hmem
      rcases mem_names_set hmem with h2 | h2
      · exact hhead w hw h2
      · have ha : a.username = .str w := nameContrib_some hw
        rw [h2, ha] at hja
        simp [jeq] at hja

theorem names_append (a b : List Session) :
    nonEmptyNames (a ++ b) = nonEmptyNames a ++ nonEmptyNames b :=
  List.filterMap_append a b nameContrib

theorem names_markDead (arr : List Session) (i : Nat) :
    nonEmptyNames (markDead arr i) = nonEmptyNames arr := by
  induction arr with
  | nil => rfl
  | cons a t ih =>
    have hhead : nameContrib (if a.clientID = i then { a with connected := false } else a) =
        nameContrib a := by
      split <;> rfl
    have hstep : markDead (a :: t) i =
        (if a.clientID = i then { a with connected := false } else a) :: markDead t i := by
      simp [markDead]
    rw [hstep]
    cases hnc : nameContrib a with
    | none =>
      rw [names_cons_none (hhead.trans hnc), names_cons_none hnc, ih]
    | some w =>
      rw [names_cons_some (hhead.trans hnc), names_cons_some hnc, ih]

theorem names_filter_sublist (arr : List Session) (p : Session → Bool) :
    (nonEmptyNames (arr.filter p)).Sublist (nonEmptyNames arr) := by
  induction arr with
  | nil => exact List.Sublist.refl _
  | cons a t ih =>
    by_cases hp : p a
    · rw [List.filter_cons_of_pos hp]
      cases hnc : nameContrib a with
      | none => rw [names_cons_none hnc, names_cons_none hnc]; exact ih
      | some w => rw [names_cons_some hnc, names_cons_some hnc]; exact ih.cons₂ w
    · rw [List.filter_cons_of_neg hp]
      exact ih.trans (names_tail_sublist a t)

theorem dispatch_state (st : ServerState) (m : Msg) : (dispatch st m).state = st := by
  rcases hmt : m.target with _ | t
  · rw [dispatch.eq_def, hmt]
  · rw [dispatch.eq_def, hmt]
    dsimp only
    by_cases hl : t.length ≠ 0
    · rw [if_pos hl]
      rcases sendToOneUser st.connectionArray t (.relay m) with _ | s1 <;> rfl
    · rw [if_neg hl]

theorem usernameCase_state_inv (st : ServerState) (msg : Msg)
    (h : RegistryInv st.connectionArray) :
    RegistryInv (usernameCase st msg).state.connectionArray := by
  rcases halloc : allocGo st.connectionArray msg.name (st.connectionArray.length + 1)
      msg.name st.appendToMakeUnique false with _ | ⟨granted, ctr2, changed⟩
  · unfold usernameCase
    rw [halloc]
    exact h
  · rcases hgc : getConnectionForID st.connectionArray msg.id with _ | conn
    · unfold usernameCase
      rw [halloc, hgc]
      exact h
    · rw [usernameCase_eq st msg conn granted ctr2 changed halloc hgc]
      exact inv_set st.connectionArray msg.id granted h
        (allocGo_some_unique st.connectionArray msg.name _ _ _ _ _ _ _ halloc)

theorem step_preserves (st : ServerState) (e : ChatEvent)
    (h : RegistryInv st.connectionArray) :
    RegistryInv (stepState st e).connectionArray := by
  match e with
  | .connect =>
    show RegistryInv (st.connectionArray ++
      [{ clientID := st.nextID, username := .undef, connected := true }])
    unfold RegistryInv
    rw [names_append]
    simpa [nonEmptyNames, nameContrib] using h
  | .disconnect i =>
    show RegistryInv ((markDead st.connectionArray i).filter (fun el => el.connected))
    unfold RegistryInv
    have hsub := names_filter_sublist (markDead st.connectionArray i) (fun el => el.connected)
    rw [names_markDead] at hsub
    exact List.Nodup.sublist hsub h
  | .message fr =>
    match fr with
    | .binary => exact h
    | .utf8 none => exact h
    | .utf8 (some msg) =>
      show RegistryInv (handleMessage st (.utf8 (some msg))).state.connectionArray
      by_cases h1 : msg.type = some "message"
      · rcases hgc : getConnectionForID st.connectionArray msg.id with _ | conn
        · rw [handleMessage, if_pos h1, hgc]
          exact h
        · rcases htext : msg.text with _ | t
          · rw [handleMessage, if_pos h1, hgc, htext]
            exact h
          · rw [handleMessage_chat st msg conn t h1 hgc htext, dispatch_state]
            exact h
      · by_cases h2 : msg.type = some "username"
        · rw [handleMessage_username st msg h2]
          exact usernameCase_state_inv st msg h
        · rw [handleMessage_passthrough st msg h1 h2, dispatch_state]
          exact h

theorem run_preserves : ∀ (es : List ChatEvent) (st : ServerState),
    RegistryInv st.connectionArray → RegistryInv (runEvents st es).connectionArray := by
  intro es
  induction es with
  | nil => intro st h; exact h
  | cons e rest ih =>
    intro st h
    simp only [runEvents, List.foldl_cons] at ih ⊢
    exact ih (stepState st e) (step_preserves st e h)

/-- Claim C1: over every sequence of connect, message and disconnect events
from server start, the registry keeps all non-empty display names pairwise
distinct at every point, so the secondary index by name stays
well-defined. -/
theorem registry_names_pairwise_distinct :
    ∀ (n0 : Nat) (es : List ChatEvent),
    RegistryInv ((runEvents (initialState n0) es).connectionArray) := by
  intro n0 es
  apply run_preserves
  exact List.nodup_nil
